import Mathlib

/-!
Shallow embedding of `pyalgotrade/technical/__init__.py` and
`pyalgotrade/technical/ma.py`.

Python dictionaries are modelled as association lists with unique keys
(`dinsert` replaces in place or appends, `derase` removes the unique entry
with the given key), Python lists used as insertion logs as Lean lists with
`pop(0)` taking the head and `append` adding at the tail.  Python `assert`
failures, `del` on a missing dictionary key and `list.pop` on an empty list
are modelled as `Except.error`.  Sample values and computed results are
rationals (the floating-point issues are out of scope; the spec itself phrases
the algebraic identities exactly over the rationals).  Absent values (`None`)
are `Option.none`.
-/

set_option autoImplicit false

namespace PyAlgoTrade

variable {κ : Type} {α : Type} [DecidableEq κ]

/-- Lookup in a Python dict modelled as an association list:
`d.get(k)` / `d[k]` for a dict with unique keys. -/
def dlookup (l : List (κ × α)) (k : κ) : Option α :=
  (l.find? (fun e => decide (e.1 = k))).map Prod.snd

/-- Membership test `k in d` for a Python dict modelled as an association list. -/
def containsKey (l : List (κ × α)) (k : κ) : Bool :=
  l.any (fun e => decide (e.1 = k))

/-- Dict assignment `d[k] = v`: replace the entry in place when the key is
present, otherwise add a new entry. -/
def dinsert (l : List (κ × α)) (k : κ) (v : α) : List (κ × α) :=
  if containsKey l k then l.map (fun e => if e.1 = k then (k, v) else e)
  else l ++ [(k, v)]

/-- Dict deletion `del d[k]` for a present key: removes the entry with key `k`. -/
def derase (l : List (κ × α)) (k : κ) : List (κ × α) :=
  l.filter (fun e => decide (e.1 ≠ k))

/-- `FIFOCache` state: `size` is the capacity (the constructor rejects
non-positive sizes), `cache` the position-to-value dictionary, `pos` the
insertion-order log (source: `FIFOCache.__init__`). -/
structure FIFOCache (κ : Type) (α : Type) where
  size : Nat
  cache : List (κ × α)
  pos : List κ

namespace FIFOCache

/-- Constructor `FIFOCache(size)`: `assert(size > 0)`, then empty dict and log. -/
def build (size : Int) : Except Unit (FIFOCache κ α) :=
  if 0 < size then .ok ⟨size.toNat, [], []⟩ else .error ()

/-- `FIFOCache.isCached(pos)`: `pos in self.__cache`. -/
def isCached (c : FIFOCache κ α) (p : κ) : Bool :=
  containsKey c.cache p

/-- `FIFOCache.getValue(pos, default)`: `self.__cache.get(pos, default)`. -/
def getValue (c : FIFOCache κ α) (p : κ) (default : α) : α :=
  (dlookup c.cache p).getD default

/-- `FIFOCache.putValue(pos, value)`: assign `self.__cache[pos] = value`,
append `pos` to the log, and when the dict size exceeds the capacity pop the
front of the log and `del` that key from the dict.  `del` on a key that is no
longer in the dict raises `KeyError` (modelled as `Except.error`), and `pop(0)`
on an empty log raises `IndexError` (likewise). -/
def putValue (c : FIFOCache κ α) (p : κ) (v : α) : Except Unit (FIFOCache κ α) :=
  let cache1 := dinsert c.cache p v
  let pos1 := c.pos ++ [p]
  if c.size < cache1.length then
    match pos1 with
    | [] => .error ()
    | q :: rest =>
      if containsKey cache1 q then .ok ⟨c.size, derase cache1 q, rest⟩
      else .error ()
  else .ok ⟨c.size, cache1, pos1⟩

/-- Run a sequence of `putValue` calls, propagating a raised exception. -/
def runPuts (c : FIFOCache κ α) : List (κ × α) → Except Unit (FIFOCache κ α)
  | [] => .ok c
  | (p, v) :: rest => (c.putValue p v).bind (fun c1 => runPuts c1 rest)

end FIFOCache

/-- Observation helper: construct a `FIFOCache` of capacity `C`, run the given
`putValue` sequence, and report whether `p` is cached afterwards (`none` when
construction or one of the puts raised). -/
def cachedAfter (C : Int) (ps : List (κ × α)) (p : κ) : Option Bool :=
  match (FIFOCache.build C).bind (fun c => FIFOCache.runPuts c ps) with
  | .ok c => some (c.isCached p)
  | .error _ => none

/-- `NoCache`: `isCached` is always false, `getValue` returns the default,
`putValue` does nothing.  Modelled together with `FIFOCache` as the two
branches of `CacheImpl` below; this inductive records which cache a
`TechnicalIndicatorBase` instance owns. -/
inductive CacheImpl : Type where
  | fifo (c : FIFOCache Int ℚ)
  | noCache

namespace CacheImpl

/-- Dispatched cache read used by `getValueAbsolute`: the source calls
`getValue(pos, Cache.ValueNotCached)` and compares against the sentinel; since
only genuine (non-sentinel, non-`None`) values are ever stored, this is the
same as an `Option`-valued lookup (`none` = sentinel returned = miss). -/
def getCached? : CacheImpl → Int → Option ℚ
  | .fifo c, p => dlookup c.cache p
  | .noCache, _ => none

/-- Dispatched `putValue`: `FIFOCache.putValue` (which can raise) or the
`NoCache` no-op. -/
def putValue : CacheImpl → Int → ℚ → Except Unit CacheImpl
  | .fifo c, p, v => (c.putValue p v).map .fifo
  | .noCache, _, _ => .ok .noCache

end CacheImpl

/-- `TechnicalIndicatorBase` state.  `windowSize` is kept as supplied (an int);
`firstValidPos` and `length` model the externally defined `getFirstValidPos()`
and `getLength()` (abstract in the source, provided by the `dataseries`
collaborator / subclass), and `calculateValue` models the abstract
`calculateValue(firstPos, lastPos)` hook a concrete filter overrides. -/
structure TechnicalIndicatorBase where
  windowSize : Int
  cache : CacheImpl
  firstValidPos : Int
  length : Int
  calculateValue : Int → Int → Option ℚ

namespace TechnicalIndicatorBase

/-- Source constant `TechnicalIndicatorBase.DefaultCacheSize`. -/
def DefaultCacheSize : Int := 512

/-- Constructor `TechnicalIndicatorBase.__init__(windowSize, cacheSize=512)`:
`assert(windowSize > 0)`; a positive `cacheSize` selects `FIFOCache(cacheSize)`
(whose own `assert(size > 0)` then passes), otherwise `NoCache()`. -/
def build (windowSize cacheSize : Int) (firstValidPos length : Int)
    (calculateValue : Int → Int → Option ℚ) : Except Unit TechnicalIndicatorBase :=
  if 0 < windowSize then
    (if 0 < cacheSize then (FIFOCache.build cacheSize).map CacheImpl.fifo
     else .ok CacheImpl.noCache).map
      (fun c => ⟨windowSize, c, firstValidPos, length, calculateValue⟩)
  else .error ()

/-- `TechnicalIndicatorBase.getValueAbsolute(pos)`.  Returns the produced value,
the updated indicator state and whether `calculateValue` was invoked on this
call; `assert(firstPos >= 0)` failing, or `putValue` raising, is `.error`. -/
def getValueAbsolute (ind : TechnicalIndicatorBase) (pos : Int) :
    Except Unit (Option ℚ × TechnicalIndicatorBase × Bool) :=
  if pos < ind.firstValidPos ∨ ind.length ≤ pos then .ok (none, ind, false)
  else
    match ind.cache.getCached? pos with
    | some v => .ok (some v, ind, false)
    | none =>
      let firstPos := pos - ind.windowSize + 1
      if firstPos < 0 then .error ()
      else
        match ind.calculateValue firstPos pos with
        | none => .ok (none, ind, true)
        | some v =>
          (ind.cache.putValue pos v).map (fun c => (some v, { ind with cache := c }, true))

/-- Run `n` successive `getValueAbsolute` calls at the same position, collecting
the returned values and counting how many calls invoked `calculateValue`. -/
def callN (ind : TechnicalIndicatorBase) (pos : Int) :
    Nat → Except Unit (List (Option ℚ) × TechnicalIndicatorBase × Nat)
  | 0 => .ok ([], ind, 0)
  | n + 1 =>
    (ind.getValueAbsolute pos).bind (fun r =>
      (callN r.2.1 pos n).map (fun s =>
        (r.1 :: s.1, s.2.1, s.2.2 + (if r.2.2 then 1 else 0))))

end TechnicalIndicatorBase

/-- `EventWindow` state: a `collections.deque(maxlen=windowSize)` and the
window size (source: `EventWindow.__init__`, with `assert(windowSize > 0)`
modelled in `EventWindow.build`). -/
structure EventWindow where
  windowSize : Nat
  values : List ℚ

namespace EventWindow

/-- Constructor `EventWindow(windowSize)` with its `assert(windowSize > 0)`. -/
def build (windowSize : Int) : Except Unit EventWindow :=
  if 0 < windowSize then .ok ⟨windowSize.toNat, []⟩ else .error ()

/-- Deque append with `maxlen = windowSize`: the oldest (front) element is
dropped when the length would exceed the window size. -/
def append1 (w : EventWindow) (x : ℚ) : EventWindow :=
  let vs := w.values ++ [x]
  ⟨w.windowSize, if w.windowSize < vs.length then vs.tail else vs⟩

/-- `EventWindow.onNewValue(dateTime, value)`: append only when the value is
present (`if value != None`); the timestamp is unused by every accumulator in
scope and is omitted. -/
def onNewValue (w : EventWindow) (v : Option ℚ) : EventWindow :=
  match v with
  | none => w
  | some x => w.append1 x

end EventWindow

/-- `ma.calculate_sma(values, begin, end)`: sum `values[begin..end-1]` and
divide by `float(end - begin)`.  The source's early `return None` on a `None`
element is vacuous here because the event-window buffer never contains absent
values (`EventWindow.onNewValue` drops them), so the buffer is a `List ℚ`;
every call site uses `begin = 0`, `end = len(values)`, which the
`drop`/`take` rendering matches. -/
def calculate_sma (values : List ℚ) (b e : Nat) : ℚ :=
  ((values.drop b).take (e - b)).sum / ((e - b : Nat) : ℚ)

/-- `SMAEventWindow` state: the inherited `EventWindow` plus the running
average `self.__value` (source: `SMAEventWindow.__init__`). -/
structure SMAEventWindow where
  ew : EventWindow
  value : Option ℚ

namespace SMAEventWindow

/-- Constructor `SMAEventWindow(period)`: `assert(period > 0)`, then the
inherited `EventWindow.__init__(period)` and `self.__value = None`. -/
def build (period : Int) : Except Unit SMAEventWindow :=
  if 0 < period then (EventWindow.build period).map (fun w => ⟨w, none⟩)
  else .error ()

/-- `SMAEventWindow.onNewValue(dateTime, value)`: snapshot the oldest buffered
value before pushing, push via the inherited `onNewValue`, and when the value
is present and the buffer is full either seed by `calculate_sma` or update
incrementally by `value/N - firstValue/N`.  The source asserts
`firstValue != None`, trivially true for a `List ℚ` buffer; the incremental
branch with an empty prior buffer (where Python would fault on
`firstValue / float(N)`) is unreachable from a freshly built window, since a
non-`None` running value implies the buffer was already full, and is rendered
with `getD 0`. -/
def onNewValue (s : SMAEventWindow) (v : Option ℚ) : SMAEventWindow :=
  let firstValue : Option ℚ := s.ew.values.head?
  let ew1 := s.ew.onNewValue v
  match v with
  | none => ⟨ew1, s.value⟩
  | some x =>
    if ew1.values.length = ew1.windowSize then
      match s.value with
      | none => ⟨ew1, some (calculate_sma ew1.values 0 ew1.windowSize)⟩
      | some old =>
        ⟨ew1, some (old + x / (s.ew.windowSize : ℚ) - (firstValue.getD 0) / (s.ew.windowSize : ℚ))⟩
    else ⟨ew1, s.value⟩

/-- Push a whole sample sequence, oldest first. -/
def pushList (s : SMAEventWindow) (samples : List (Option ℚ)) : SMAEventWindow :=
  samples.foldl onNewValue s

/-- The running value after each push, in order. -/
def trace (s : SMAEventWindow) : List (Option ℚ) → List (Option ℚ)
  | [] => []
  | v :: rest =>
    let s1 := s.onNewValue v
    s1.value :: trace s1 rest

end SMAEventWindow

/-- `EMAEventWindow` state: the inherited `EventWindow`, the fixed
`self.__multiplier` and the running value (source: `EMAEventWindow.__init__`). -/
structure EMAEventWindow where
  ew : EventWindow
  multiplier : ℚ
  value : Option ℚ

namespace EMAEventWindow

/-- Constructor `EMAEventWindow(period)`: `assert(period > 1)`, the inherited
`EventWindow.__init__(period)`, and `self.__multiplier = 2.0 / (period + 1)`. -/
def build (period : Int) : Except Unit EMAEventWindow :=
  if 1 < period then
    (EventWindow.build period).map (fun w => ⟨w, 2 / ((period : ℚ) + 1), none⟩)
  else .error ()

/-- `EMAEventWindow.onNewValue(dateTime, value)`: push via the inherited
`onNewValue`; when the value is present and the buffer is full, seed with
`calculate_sma(values, 0, len(values))` on the first full window, thereafter
`(value - self.__value) * self.__multiplier + self.__value`. -/
def onNewValue (s : EMAEventWindow) (v : Option ℚ) : EMAEventWindow :=
  let ew1 := s.ew.onNewValue v
  match v with
  | none => ⟨ew1, s.multiplier, s.value⟩
  | some x =>
    if ew1.values.length = ew1.windowSize then
      match s.value with
      | none => ⟨ew1, s.multiplier, some (calculate_sma ew1.values 0 ew1.values.length)⟩
      | some old => ⟨ew1, s.multiplier, some ((x - old) * s.multiplier + old)⟩
    else ⟨ew1, s.multiplier, s.value⟩

/-- Push a whole sample sequence, oldest first. -/
def pushList (s : EMAEventWindow) (samples : List (Option ℚ)) : EMAEventWindow :=
  samples.foldl onNewValue s

/-- The running value after each push, in order. -/
def trace (s : EMAEventWindow) : List (Option ℚ) → List (Option ℚ)
  | [] => []
  | v :: rest =>
    let s1 := s.onNewValue v
    s1.value :: trace s1 rest

end EMAEventWindow

/-- `WMAEventWindow` state: the inherited `EventWindow` plus the weight list
(source: `WMAEventWindow.__init__`). -/
structure WMAEventWindow where
  ew : EventWindow
  weights : List ℚ

namespace WMAEventWindow

/-- Constructor `WMAEventWindow(weights)`: `assert(len(weights) > 0)` and the
inherited `EventWindow.__init__(len(weights))`. -/
def build (weights : List ℚ) : Except Unit WMAEventWindow :=
  if 0 < weights.length then
    (EventWindow.build weights.length).map (fun w => ⟨w, weights⟩)
  else .error ()

/-- `WMAEventWindow` does not override `onNewValue`: the inherited
`EventWindow.onNewValue` runs. -/
def onNewValue (s : WMAEventWindow) (v : Option ℚ) : WMAEventWindow :=
  ⟨s.ew.onNewValue v, s.weights⟩

/-- `WMAEventWindow.getValue()`: when the buffer is full, pair each buffered
value (oldest to newest) with the weight at the same index, and return
`accum / float(weightSum)`; the enumerated weight sum over a full buffer is the
sum of the whole weight list. -/
def getValue (s : WMAEventWindow) : Option ℚ :=
  if s.ew.values.length = s.ew.windowSize then
    some ((List.zipWith (· * ·) s.ew.values s.weights).sum / s.weights.sum)
  else none

end WMAEventWindow

section FIFOLemmas

/-- Key list of a dict modelled as an association list. -/
def keysOf (l : List (κ × α)) : List κ :=
  l.map Prod.fst

/-- A `FIFOCache` state is `Clean` when the insertion log is exactly the key
list of the dict (no stale log entries), the keys are distinct and the dict is
within capacity.  Every state reachable without overwriting a present key is
`Clean`. -/
def Clean (c : FIFOCache κ α) : Prop :=
  c.pos = keysOf c.cache ∧ (keysOf c.cache).Nodup ∧ c.cache.length ≤ c.size

/-- A cache state whose dict and log both hold exactly the keys `ks`, each key
`k` mapped to `vs k`. -/
def ofKeys (C : Nat) (vs : κ → α) (ks : List κ) : FIFOCache κ α :=
  ⟨C, ks.map (fun k => (k, vs k)), ks⟩

/-- The put sequence inserting each key `k` of `ks` with value `vs k`. -/
def putKeys (vs : κ → α) (ks : List κ) : List (κ × α) :=
  ks.map (fun k => (k, vs k))

theorem containsKey_iff (l : List (κ × α)) (k : κ) :
    containsKey l k = true ↔ k ∈ keysOf l := by
  simp only [containsKey, keysOf, List.any_eq_true, List.mem_map,
    decide_eq_true_eq]

theorem keysOf_append (l1 l2 : List (κ × α)) :
    keysOf (l1 ++ l2) = keysOf l1 ++ keysOf l2 :=
  List.map_append _ l1 l2

theorem keysOf_pairs (vs : κ → α) (ks : List κ) :
    keysOf (ks.map fun k => (k, vs k)) = ks := by
  induction ks with
  | nil => rfl
  | cons k t ih => simpa [keysOf] using ih

theorem keysOf_ofKeys (C : Nat) (vs : κ → α) (ks : List κ) :
    keysOf (ofKeys C vs ks).cache = ks :=
  keysOf_pairs vs ks

theorem isCached_ofKeys (C : Nat) (vs : κ → α) (ks : List κ) (p : κ) :
    (ofKeys C vs ks).isCached p = true ↔ p ∈ ks := by
  rw [FIFOCache.isCached, containsKey_iff, keysOf_ofKeys]

theorem Clean_ofKeys (C : Nat) (vs : κ → α) (ks : List κ)
    (hnd : ks.Nodup) (hlen : ks.length ≤ C) : Clean (ofKeys C vs ks) := by
  refine ⟨(keysOf_ofKeys C vs ks).symm, ?_, ?_⟩
  · rw [keysOf_ofKeys]; exact hnd
  · simpa [ofKeys] using hlen

theorem dinsert_of_fresh (l : List (κ × α)) (k : κ) (v : α)
    (h : k ∉ keysOf l) : dinsert l k v = l ++ [(k, v)] := by
  rw [dinsert, if_neg]
  intro hc
  exact h ((containsKey_iff l k).mp hc)

theorem derase_of_not_mem (l : List (κ × α)) (k : κ) (h : k ∉ keysOf l) :
    derase l k = l := by
  rw [derase, List.filter_eq_self]
  intro e he
  simp only [decide_eq_true_eq]
  intro hek
  exact h (hek ▸ List.mem_map_of_mem Prod.fst he)

/-- Unfolding of `putValue` in the no-eviction case. -/
theorem putValue_eq_keep (c : FIFOCache κ α) (p : κ) (v : α)
    (hroom : ¬ c.size < (dinsert c.cache p v).length) :
    c.putValue p v = .ok ⟨c.size, dinsert c.cache p v, c.pos ++ [p]⟩ := by
  simp only [FIFOCache.putValue, if_neg hroom]

/-- Unfolding of `putValue` in the eviction case, once the extended log is
known to start with `q`. -/
theorem putValue_eq_evict (c : FIFOCache κ α) (p : κ) (v : α) (q : κ) (rest : List κ)
    (hq : c.pos ++ [p] = q :: rest)
    (hfull : c.size < (dinsert c.cache p v).length) :
    c.putValue p v =
      if containsKey (dinsert c.cache p v) q then
        .ok ⟨c.size, derase (dinsert c.cache p v) q, rest⟩
      else .error () := by
  simp only [FIFOCache.putValue, hq, if_pos hfull]

/-- `putValue` with a key not currently in the dict, from a `Clean` state with
positive capacity: succeeds, appends the pair, and drops the oldest entry
exactly when the dict was full. -/
theorem putValue_ofKeys_fresh (C : Nat) (vs : κ → α) (ks : List κ) (p : κ)
    (hnd : ks.Nodup) (hlen : ks.length ≤ C) (hC : 0 < C) (hp : p ∉ ks) :
    (ofKeys C vs ks).putValue p (vs p) =
      .ok (ofKeys C vs (if ks.length < C then ks ++ [p] else ks.tail ++ [p])) := by
  have hins : dinsert (ofKeys C vs ks).cache p (vs p)
      = (ofKeys C vs ks).cache ++ [(p, vs p)] := by
    apply dinsert_of_fresh
    rw [keysOf_ofKeys]
    exact hp
  have hinslen : (dinsert (ofKeys C vs ks).cache p (vs p)).length = ks.length + 1 := by
    rw [hins]
    simp [ofKeys]
  by_cases hlt : ks.length < C
  · rw [putValue_eq_keep _ _ _ (by rw [hinslen]; simp only [ofKeys]; omega),
      hins, if_pos hlt]
    simp [ofKeys]
  · have hfull : ks.length = C := le_antisymm hlen (not_lt.mp hlt)
    obtain ⟨k0, ks', rfl⟩ : ∃ k0 ks', ks = k0 :: ks' := by
      cases ks with
      | nil => exact absurd (hfull ▸ hC) (by simp)
      | cons a t => exact ⟨a, t, rfl⟩
    have hk0 : k0 ∉ ks' := (List.nodup_cons.mp hnd).1
    have hpk0 : p ≠ k0 := by
      intro h
      exact hp (h ▸ List.mem_cons_self k0 ks')
    have hposmatch : (ofKeys C vs (k0 :: ks')).pos ++ [p] = k0 :: (ks' ++ [p]) := by
      simp [ofKeys]
    rw [putValue_eq_evict _ _ _ k0 (ks' ++ [p]) hposmatch
      (by rw [hinslen]; simp only [ofKeys]; omega), hins]
    have hck : containsKey ((ofKeys C vs (k0 :: ks')).cache ++ [(p, vs p)]) k0 = true := by
      rw [containsKey_iff, keysOf_append, keysOf_ofKeys]
      exact List.mem_append_left _ (List.mem_cons_self k0 ks')
    rw [if_pos hck]
    have hnotin : k0 ∉ keysOf ((ks'.map fun k => (k, vs k)) ++ [(p, vs p)]) := by
      rw [keysOf_append, keysOf_pairs]
      intro hmem
      rcases List.mem_append.mp hmem with h | h
      · exact hk0 h
      · have hkp : k0 = p := by simpa [keysOf] using h
        exact hpk0 hkp.symm
    have herase : derase (((k0, vs k0) :: ks'.map (fun k => (k, vs k))) ++ [(p, vs p)]) k0
        = ks'.map (fun k => (k, vs k)) ++ [(p, vs p)] := by
      rw [List.cons_append, derase, List.filter_cons, if_neg (by simp)]
      exact derase_of_not_mem _ _ hnotin
    simp only [ofKeys, List.map_cons] at herase ⊢
    rw [herase, if_neg (by simpa using hlt)]
    simp [List.map_append]

theorem runPuts_append (c : FIFOCache κ α) (l1 l2 : List (κ × α)) :
    FIFOCache.runPuts c (l1 ++ l2)
      = (FIFOCache.runPuts c l1).bind (fun c1 => FIFOCache.runPuts c1 l2) := by
  induction l1 generalizing c with
  | nil => rfl
  | cons e t ih =>
    obtain ⟨p, v⟩ := e
    rw [List.cons_append, FIFOCache.runPuts, FIFOCache.runPuts]
    cases c.putValue p v with
    | error e => rfl
    | ok c1 => simpa [Except.bind] using ih c1

/-- Filling a `Clean` within-capacity cache with fresh distinct keys never
evicts: each pair is appended in order. -/
theorem runPuts_fill (C : Nat) (vs : κ → α) (hC : 0 < C) :
    ∀ (ks start : List κ), (start ++ ks).Nodup → (start ++ ks).length ≤ C →
    FIFOCache.runPuts (ofKeys C vs start) (putKeys vs ks)
      = .ok (ofKeys C vs (start ++ ks)) := by
  intro ks
  induction ks with
  | nil =>
    intro start _ _
    simp [putKeys, FIFOCache.runPuts]
  | cons k t ih =>
    intro start hnd hlen
    have hknd : (start ++ k :: t).Nodup := hnd
    have hstartnd : start.Nodup := (List.nodup_append.mp hnd).1
    have hkfresh : k ∉ start := by
      intro hk
      exact (List.nodup_append.mp hnd).2.2 hk (List.mem_cons_self k t)
    have hstartlen : start.length < C := by
      have := hlen
      simp only [List.length_append, List.length_cons] at this
      omega
    rw [putKeys, List.map_cons, FIFOCache.runPuts,
      putValue_ofKeys_fresh C vs start k hstartnd (le_of_lt hstartlen) hC hkfresh,
      if_pos hstartlen]
    have ht : FIFOCache.runPuts (ofKeys C vs (start ++ [k])) (putKeys vs t)
        = .ok (ofKeys C vs ((start ++ [k]) ++ t)) := by
      apply ih
      · simpa using hnd
      · simpa using hlen
    simpa [putKeys, List.append_assoc] using ht

/-- Filling an empty cache of capacity `C ≥ 1` with `C + 1` distinct keys:
the first `C` fill it and the last evicts the very first. -/
theorem runPuts_overfill (p0 : κ) (rest : List κ) (vs : κ → α)
    (hnd : (p0 :: rest).Nodup) (hne : rest ≠ []) :
    FIFOCache.runPuts (ofKeys rest.length vs []) (putKeys vs (p0 :: rest))
      = .ok (ofKeys rest.length vs rest) := by
  rcases List.eq_nil_or_concat rest with h | ⟨init, lst, rfl⟩
  · exact absurd h hne
  simp only [List.concat_eq_append] at hnd hne ⊢
  have hC : 0 < (init ++ [lst]).length := by simp
  have hcons : p0 :: (init ++ [lst]) = (p0 :: init) ++ [lst] := rfl
  rw [hcons, putKeys, List.map_append, runPuts_append, ← putKeys]
  have hfillnd : (p0 :: init).Nodup := by
    rw [hcons] at hnd
    exact (List.nodup_append.mp hnd).1
  have hfilllen : (p0 :: init).length ≤ (init ++ [lst]).length := by simp
  rw [runPuts_fill _ vs hC (p0 :: init) [] (by simpa using hfillnd) (by simpa using hfilllen)]
  have hlstfresh : lst ∉ p0 :: init := by
    rw [hcons] at hnd
    intro hmem
    exact (List.nodup_append.mp hnd).2.2 hmem (List.mem_singleton.mpr rfl)
  have hfull : ¬ (p0 :: init).length < (init ++ [lst]).length := by simp
  have hstep := putValue_ofKeys_fresh (init ++ [lst]).length vs (p0 :: init) lst
    hfillnd (by simp) hC hlstfresh
  rw [if_neg hfull] at hstep
  simp only [List.map_cons, List.map_nil, List.nil_append, FIFOCache.runPuts, hstep,
    Except.bind]
  rfl

/-- One more fresh insertion into a full clean cache drops the oldest key. -/
theorem runPuts_step_full (C : Nat) (vs : κ → α) (ks : List κ) (p : κ)
    (hnd : ks.Nodup) (hfull : ks.length = C) (hC : 0 < C) (hp : p ∉ ks) :
    FIFOCache.runPuts (ofKeys C vs ks) [(p, vs p)]
      = .ok (ofKeys C vs (ks.tail ++ [p])) := by
  have hstep := putValue_ofKeys_fresh C vs ks p hnd (le_of_eq hfull) hC hp
  rw [if_neg (by omega)] at hstep
  simp only [FIFOCache.runPuts, hstep, Except.bind]

/-- Connect `cachedAfter` to an explicit successful run. -/
theorem cachedAfter_of_run (C : Int) (ps : List (κ × α)) (s : FIFOCache κ α) (p : κ)
    (hC : 0 < C)
    (h : FIFOCache.runPuts ⟨C.toNat, [], []⟩ ps = .ok s) :
    cachedAfter C ps p = some (s.isCached p) := by
  rw [cachedAfter, FIFOCache.build, if_pos hC]
  simp only [Except.bind, h]

theorem isCached_ofKeys_false (C : Nat) (vs : κ → α) (ks : List κ) (p : κ)
    (hp : p ∉ ks) : (ofKeys C vs ks).isCached p = false := by
  cases h : (ofKeys C vs ks).isCached p
  · rfl
  · exact absurd ((isCached_ofKeys C vs ks p).mp h) hp

theorem isCached_ofKeys_true (C : Nat) (vs : κ → α) (ks : List κ) (p : κ)
    (hp : p ∈ ks) : (ofKeys C vs ks).isCached p = true :=
  (isCached_ofKeys C vs ks p).mpr hp

end FIFOLemmas

/-- Claim C1 (code bug): the claim says that for a `FIFOCache` of positive
capacity no operation ever fails and `putValue` always succeeds, including
overwrites of an already-present position.  The code violates this: with
capacity 1, `putValue(0, 1)`, `putValue(0, 2)` (an overwrite, which logs
position 0 a second time without growing the dict), `putValue(1, 3)` (evicts
position 0, popping one of the two stale log entries) and then
`putValue(2, 4)` pops the stale leftover log entry 0 and executes
`del self.__cache[0]` on a dict that no longer holds 0, raising `KeyError`. -/
theorem fifo_putValue_overwrite_keyError :
    (FIFOCache.build (κ := Nat) (α := ℚ) 1).bind
      (fun c => FIFOCache.runPuts c [(0, 1), (0, 2), (1, 3), (2, 4)])
      = .error () := by
  rfl

/-- Claim C2, counterexample to the claim as stated: with capacity `C = 2` and
distinct positions `0, 1, 2`, re-inserting position `0` AT ONCE evicts
position `1` (the dict exceeds capacity again because `0` had been evicted),
so before any further fresh insertion `isCached(1)` is already false; and the
next fresh insertion (position `3`) then evicts position `2`, not position
`1`, while `0` survives. -/
theorem fifo_reinsertion_eviction_cex :
    cachedAfter (κ := Nat) 2 (putKeys (fun k => (k : ℚ)) [0, 1, 2, 0]) 1 = some false ∧
    cachedAfter (κ := Nat) 2 (putKeys (fun k => (k : ℚ)) [0, 1, 2, 0, 3]) 2 = some false ∧
    cachedAfter (κ := Nat) 2 (putKeys (fun k => (k : ℚ)) [0, 1, 2, 0, 3]) 0 = some true := by
  refine ⟨by rfl, by rfl, by rfl⟩

/-- Claim C2 (amended).  First conjunct — unchanged first half of the claim:
for a `FIFOCache` with capacity `C ≥ 1`, after `putValue` of `C + 1` distinct
positions `p₀ :: rest` in order, `isCached p₀` is false and `isCached pᵢ` is
true for every later position.  Second conjunct — amended second half: with
`C = mid.length + 2 ≥ 2` and distinct positions `p₀, p₁, mid…, plast`,
re-inserting `p₀` places it at the back of the eviction order but itself
evicts `p₁` (the map exceeds capacity again since `p₀` had been evicted); the
next insertion of a fresh position `q` then evicts `p₂` (the third inserted
position, `mid.headD plast`) rather than `p₀`. -/
theorem fifo_eviction_order_amended :
    (∀ (p0 : Nat) (rest : List Nat) (vs : Nat → ℚ),
      (p0 :: rest).Nodup → rest ≠ [] →
      cachedAfter (rest.length : Int) (putKeys vs (p0 :: rest)) p0 = some false ∧
      ∀ p ∈ rest, cachedAfter (rest.length : Int) (putKeys vs (p0 :: rest)) p = some true) ∧
    (∀ (p0 p1 plast q : Nat) (mid : List Nat) (vs : Nat → ℚ),
      (p0 :: p1 :: (mid ++ [plast])).Nodup → q ∉ p0 :: p1 :: (mid ++ [plast]) →
      (cachedAfter ((mid.length + 2 : Nat) : Int)
          (putKeys vs ((p0 :: p1 :: (mid ++ [plast])) ++ [p0])) p1 = some false ∧
       cachedAfter ((mid.length + 2 : Nat) : Int)
          (putKeys vs ((p0 :: p1 :: (mid ++ [plast])) ++ [p0])) p0 = some true) ∧
      (cachedAfter ((mid.length + 2 : Nat) : Int)
          (putKeys vs ((p0 :: p1 :: (mid ++ [plast])) ++ [p0, q])) (mid.headD plast)
            = some false ∧
       cachedAfter ((mid.length + 2 : Nat) : Int)
          (putKeys vs ((p0 :: p1 :: (mid ++ [plast])) ++ [p0, q])) p0 = some true ∧
       cachedAfter ((mid.length + 2 : Nat) : Int)
          (putKeys vs ((p0 :: p1 :: (mid ++ [plast])) ++ [p0, q])) q = some true)) := by
  constructor
  · intro p0 rest vs hnd hne
    have hC : 0 < rest.length := List.length_pos.mpr hne
    have hrun := runPuts_overfill p0 rest vs hnd hne
    have hrun' : FIFOCache.runPuts ⟨((rest.length : Int)).toNat, [], []⟩
        (putKeys vs (p0 :: rest)) = .ok (ofKeys rest.length vs rest) := by
      rw [Int.toNat_natCast]
      exact hrun
    have hCi : (0 : Int) < (rest.length : Int) := by exact_mod_cast hC
    constructor
    · rw [cachedAfter_of_run _ _ _ _ hCi hrun']
      rw [isCached_ofKeys_false]
      exact (List.nodup_cons.mp hnd).1
    · intro p hp
      rw [cachedAfter_of_run _ _ _ _ hCi hrun']
      rw [isCached_ofKeys_true]
      exact hp
  · intro p0 p1 plast q mid vs hnd hq
    obtain ⟨hp0, hnd1⟩ := List.nodup_cons.mp hnd
    obtain ⟨hp1, hnd2⟩ := List.nodup_cons.mp hnd1
    have hCi : (0 : Int) < ((mid.length + 2 : Nat) : Int) := by positivity
    have hlen1 : (p1 :: (mid ++ [plast])).length = mid.length + 2 := by simp
    -- run of the first C + 1 distinct positions
    have h1 := runPuts_overfill p0 (p1 :: (mid ++ [plast])) vs hnd (by simp)
    rw [hlen1] at h1
    -- re-inserting p0 evicts p1
    have h2 := runPuts_step_full (mid.length + 2) vs (p1 :: (mid ++ [plast])) p0
      hnd1 (by simp) (by omega) hp0
    have htail2 : (p1 :: (mid ++ [plast])).tail ++ [p0] = mid ++ [plast, p0] := by simp
    rw [htail2] at h2
    -- inserting the fresh q then evicts the third position
    have hp0' := hp0
    have hp1' := hp1
    have hq' := hq
    simp only [List.mem_cons, List.mem_append, List.mem_singleton, not_or] at hp0' hp1' hq'
    have hnd3 : (mid ++ [plast, p0]).Nodup := by
      have hsplit : mid ++ [plast, p0] = (mid ++ [plast]) ++ [p0] := by simp
      rw [hsplit, List.nodup_append]
      refine ⟨hnd2, List.nodup_singleton p0, ?_⟩
      intro x hx hx0
      rw [List.mem_singleton] at hx0
      subst hx0
      exact hp0 (List.mem_cons_of_mem p1 hx)
    have hqfresh : q ∉ mid ++ [plast, p0] := by
      simp only [List.mem_append, List.mem_cons, List.mem_singleton, not_or]
      tauto
    have h3 := runPuts_step_full (mid.length + 2) vs (mid ++ [plast, p0]) q
      hnd3 (by simp) (by omega) hqfresh
    -- assemble the two composite runs
    have h1e : FIFOCache.runPuts ⟨mid.length + 2, [], []⟩
        (putKeys vs (p0 :: p1 :: (mid ++ [plast])))
        = .ok (ofKeys (mid.length + 2) vs (p1 :: (mid ++ [plast]))) := h1
    have hrun2 : FIFOCache.runPuts ⟨(((mid.length + 2 : Nat)) : Int).toNat, [], []⟩
        (putKeys vs ((p0 :: p1 :: (mid ++ [plast])) ++ [p0]))
        = .ok (ofKeys (mid.length + 2) vs (mid ++ [plast, p0])) := by
      rw [Int.toNat_natCast, putKeys, List.map_append, runPuts_append, ← putKeys, h1e]
      simpa [putKeys, Except.bind] using h2
    have hrun2e : FIFOCache.runPuts ⟨mid.length + 2, [], []⟩
        (putKeys vs ((p0 :: p1 :: (mid ++ [plast])) ++ [p0]))
        = .ok (ofKeys (mid.length + 2) vs (mid ++ [plast, p0])) := by
      rw [Int.toNat_natCast] at hrun2
      exact hrun2
    have hrun3 : FIFOCache.runPuts ⟨(((mid.length + 2 : Nat)) : Int).toNat, [], []⟩
        (putKeys vs ((p0 :: p1 :: (mid ++ [plast])) ++ [p0, q]))
        = .ok (ofKeys (mid.length + 2) vs ((mid ++ [plast, p0]).tail ++ [q])) := by
      have hsplit : (p0 :: p1 :: (mid ++ [plast])) ++ [p0, q]
          = ((p0 :: p1 :: (mid ++ [plast])) ++ [p0]) ++ [q] := by simp
      rw [Int.toNat_natCast, hsplit, putKeys, List.map_append, runPuts_append,
        ← putKeys, hrun2e]
      simpa [putKeys, Except.bind] using h3
    refine ⟨⟨?_, ?_⟩, ?_, ?_, ?_⟩
    · rw [cachedAfter_of_run _ _ _ _ hCi hrun2, isCached_ofKeys_false]
      simp only [List.mem_append, List.mem_cons, List.mem_singleton, not_or]
      tauto
    · rw [cachedAfter_of_run _ _ _ _ hCi hrun2, isCached_ofKeys_true]
      simp
    · rw [cachedAfter_of_run _ _ _ _ hCi hrun3, isCached_ofKeys_false]
      cases mid with
      | nil =>
        have hne1 : ¬ plast = p0 := by
          intro h
          exact hp0 (by rw [← h]; simp)
        have hne2 : ¬ plast = q := by
          intro h
          exact hq (by rw [← h]; simp)
        intro hmem
        simp only [List.headD, List.nil_append, List.cons_append, List.tail,
          List.mem_append, List.mem_cons, List.mem_singleton, List.not_mem_nil] at hmem
        tauto
      | cons a mid' =>
        have hdup := hnd2
        rw [List.cons_append, List.nodup_cons] at hdup
        have ha1 : a ∉ mid' := fun h => hdup.1 (List.mem_append_left _ h)
        have ha2 : ¬ a = plast := fun h => hdup.1 (List.mem_append_right _ (by simp [h]))
        have ha3 : ¬ a = p0 := by
          intro h
          exact hp0 (by rw [← h]; simp)
        have ha4 : ¬ a = q := by
          intro h
          exact hq (by rw [← h]; simp)
        intro hmem
        simp only [List.headD, List.cons_append, List.tail, List.mem_append,
          List.mem_cons, List.mem_singleton, List.not_mem_nil] at hmem
        tauto
    · rw [cachedAfter_of_run _ _ _ _ hCi hrun3, isCached_ofKeys_true]
      cases mid with
      | nil => simp
      | cons a mid' => simp
    · rw [cachedAfter_of_run _ _ _ _ hCi hrun3, isCached_ofKeys_true]
      simp

/-- Witness for the amended C2 theorem at concrete inputs: capacity 3,
positions 10, 20, 30, 40, reinserted 10, fresh 50. -/
theorem fifo_eviction_order_amended_witness :
    (cachedAfter (κ := Nat) 3 (putKeys (fun k => (k : ℚ)) [10, 20, 30, 40]) 10
        = some false ∧
      cachedAfter (κ := Nat) 3 (putKeys (fun k => (k : ℚ)) [10, 20, 30, 40]) 20
        = some true) ∧
    cachedAfter (κ := Nat) 3 (putKeys (fun k => (k : ℚ)) [10, 20, 30, 40, 10]) 20
        = some false ∧
    cachedAfter (κ := Nat) 3 (putKeys (fun k => (k : ℚ)) [10, 20, 30, 40, 10, 50]) 30
        = some false := by
  refine ⟨⟨?_, ?_⟩, ?_, ?_⟩
  · exact (fifo_eviction_order_amended.1 10 [20, 30, 40] (fun k => (k : ℚ))
      (by decide) (by decide)).1
  · exact (fifo_eviction_order_amended.1 10 [20, 30, 40] (fun k => (k : ℚ))
      (by decide) (by decide)).2 20 (by decide)
  · exact ((fifo_eviction_order_amended.2 10 20 40 50 [30] (fun k => (k : ℚ))
      (by decide) (by decide)).1).1
  · exact ((fifo_eviction_order_amended.2 10 20 40 50 [30] (fun k => (k : ℚ))
      (by decide) (by decide)).2).1

section IndicatorLemmas

theorem dlookup_eq_none (l : List (κ × α)) (k : κ) (h : k ∉ keysOf l) :
    dlookup l k = none := by
  induction l with
  | nil => rfl
  | cons e t ih =>
    have hek : ¬ e.1 = k := by
      intro hek
      exact h (hek ▸ List.mem_cons_self e.1 (keysOf t))
    have ht : k ∉ keysOf t := by
      intro hmem
      exact h (List.mem_cons_of_mem e.1 hmem)
    simp only [dlookup, List.find?_cons, hek, decide_eq_true_eq, if_neg]
    simpa [dlookup, hek] using ih ht

theorem dlookup_append_singleton (l : List (κ × α)) (p : κ) (v : α)
    (h : p ∉ keysOf l) : dlookup (l ++ [(p, v)]) p = some v := by
  induction l with
  | nil => simp [dlookup]
  | cons e t ih =>
    have hek : ¬ e.1 = p := by
      intro hek
      exact h (hek ▸ List.mem_cons_self e.1 (keysOf t))
    have ht : p ∉ keysOf t := by
      intro hmem
      exact h (List.mem_cons_of_mem e.1 hmem)
    simpa [dlookup, List.find?_cons, hek] using ih ht

/-- `putValue` with a key that is not cached, from any `Clean` state with
positive capacity: it succeeds, stays `Clean`, keeps the capacity, and the key
is afterwards cached with the stored value. -/
theorem putValue_fresh_clean (c : FIFOCache κ α) (p : κ) (v : α)
    (hcl : Clean c) (hsz : 0 < c.size) (hp : c.isCached p = false) :
    ∃ c', c.putValue p v = .ok c' ∧ Clean c' ∧ c'.size = c.size ∧
      dlookup c'.cache p = some v := by
  obtain ⟨hpos, hnd, hlen⟩ := hcl
  have hfresh : p ∉ keysOf c.cache := by
    intro hmem
    rw [← containsKey_iff] at hmem
    rw [FIFOCache.isCached] at hp
    rw [hp] at hmem
    exact Bool.false_ne_true hmem
  have hins : dinsert c.cache p v = c.cache ++ [(p, v)] :=
    dinsert_of_fresh c.cache p v hfresh
  have hinslen : (dinsert c.cache p v).length = c.cache.length + 1 := by
    rw [hins, List.length_append, List.length_singleton]
  by_cases hlt : c.cache.length < c.size
  · refine ⟨⟨c.size, c.cache ++ [(p, v)], c.pos ++ [p]⟩, ?_, ?_, rfl, ?_⟩
    · rw [putValue_eq_keep c p v (by omega), hins]
    · refine ⟨?_, ?_, ?_⟩
      · simp only [hpos, keysOf_append]
        rfl
      · rw [keysOf_append]
        rw [List.nodup_append]
        refine ⟨hnd, List.nodup_singleton p, ?_⟩
        intro x hx hx0
        have hxp : x = p := by simpa [keysOf] using hx0
        exact hfresh (hxp ▸ hx)
      · simp only [List.length_append, List.length_singleton]
        omega
    · exact dlookup_append_singleton c.cache p v hfresh
  · have hfull : c.cache.length = c.size := le_antisymm hlen (not_lt.mp hlt)
    obtain ⟨e, t, het⟩ : ∃ e t, c.cache = e :: t := by
      cases hcc : c.cache with
      | nil => rw [hcc] at hfull; simp at hfull; omega
      | cons e t => exact ⟨e, t, rfl⟩
    rw [het] at hins hfull hfresh hnd hpos hinslen
    have hfresh' : p ∉ e.1 :: keysOf t := by simpa [keysOf] using hfresh
    have hnd' : (e.1 :: keysOf t).Nodup := by simpa [keysOf] using hnd
    have hq0 : e.1 ∉ keysOf t := (List.nodup_cons.mp hnd').1
    have hqp : ¬ p = e.1 := by
      intro hpe
      exact hfresh' (hpe ▸ List.mem_cons_self e.1 (keysOf t))
    have hposmatch : c.pos ++ [p] = e.1 :: (keysOf t ++ [p]) := by
      rw [hpos]
      simp [keysOf]
    have hck : containsKey (dinsert (e :: t) p v) e.1 = true := by
      rw [hins, containsKey_iff, keysOf_append]
      apply List.mem_append_left
      simp [keysOf]
    have hnotin : e.1 ∉ keysOf (t ++ [(p, v)]) := by
      rw [keysOf_append]
      intro hmem
      rcases List.mem_append.mp hmem with h | h
      · exact hq0 h
      · have : e.1 = p := by simpa [keysOf] using h
        exact hqp this.symm
    have herase : derase (dinsert (e :: t) p v) e.1 = t ++ [(p, v)] := by
      rw [hins, List.cons_append, derase, List.filter_cons, if_neg (by simp)]
      exact derase_of_not_mem _ _ hnotin
    refine ⟨⟨c.size, t ++ [(p, v)], keysOf t ++ [p]⟩, ?_, ?_, rfl, ?_⟩
    · rw [putValue_eq_evict c p v e.1 (keysOf t ++ [p]) hposmatch
        (by rw [het]; omega)]
      rw [het, if_pos hck, herase]
    · refine ⟨?_, ?_, ?_⟩
      · simp only [keysOf_append]
        rfl
      · rw [keysOf_append]
        rw [List.nodup_append]
        have hndt : (keysOf t).Nodup := (List.nodup_cons.mp hnd').2
        refine ⟨hndt, List.nodup_singleton p, ?_⟩
        intro x hx hx0
        have hxp : x = p := by simpa [keysOf] using hx0
        exact hfresh' (hxp ▸ List.mem_cons_of_mem e.1 hx)
      · simp only [List.length_append, List.length_singleton]
        have : t.length + 1 = c.size := by simpa using hfull
        omega
    · apply dlookup_append_singleton
      intro hmem
      exact hfresh' (List.mem_cons_of_mem e.1 hmem)

/-- In-bounds cache hit: the cached value is returned, nothing changes and
`calculateValue` is not invoked. -/
theorem getValueAbsolute_hit (ind : TechnicalIndicatorBase) (pos : Int) (v : ℚ)
    (hin : ¬ (pos < ind.firstValidPos ∨ ind.length ≤ pos))
    (hv : ind.cache.getCached? pos = some v) :
    ind.getValueAbsolute pos = .ok (some v, ind, false) := by
  rw [TechnicalIndicatorBase.getValueAbsolute, if_neg hin, hv]

theorem callN_hit (ind : TechnicalIndicatorBase) (pos : Int) (v : ℚ) (n : Nat)
    (hin : ¬ (pos < ind.firstValidPos ∨ ind.length ≤ pos))
    (hv : ind.cache.getCached? pos = some v) :
    ind.callN pos n = .ok (List.replicate n (some v), ind, 0) := by
  induction n with
  | zero => rfl
  | succ m ih =>
    rw [TechnicalIndicatorBase.callN, getValueAbsolute_hit ind pos v hin hv]
    simp [Except.bind, Except.map, ih, List.replicate_succ]

/-- In-bounds miss on a clean FIFO cache with a present computed value: the
first call invokes `calculateValue` once and caches the value; every later
call at the same position is a hit. -/
theorem callN_miss_fifo (ind : TechnicalIndicatorBase) (pos : Int)
    (c : FIFOCache Int ℚ) (v : ℚ) (n : Nat)
    (hc : ind.cache = .fifo c) (hcl : Clean c) (hsz : 0 < c.size)
    (hin : ¬ (pos < ind.firstValidPos ∨ ind.length ≤ pos))
    (hfp : ¬ pos - ind.windowSize + 1 < 0)
    (hmiss : c.isCached pos = false)
    (hcalc : ind.calculateValue (pos - ind.windowSize + 1) pos = some v) :
    ∃ ind', ind.callN pos n = .ok (List.replicate n (some v), ind', min n 1) := by
  cases n with
  | zero => exact ⟨ind, rfl⟩
  | succ m =>
    obtain ⟨c', hput, hcl', hsz', hv'⟩ := putValue_fresh_clean c pos v hcl hsz hmiss
    have hmiss' : ind.cache.getCached? pos = none := by
      rw [hc, CacheImpl.getCached?]
      apply dlookup_eq_none
      intro hmem
      rw [← containsKey_iff] at hmem
      rw [FIFOCache.isCached] at hmiss
      rw [hmiss] at hmem
      exact Bool.false_ne_true hmem
    have hpre : ind.getValueAbsolute pos
        = (ind.cache.putValue pos v).map (fun cc => (some v, { ind with cache := cc }, true)) := by
      rw [TechnicalIndicatorBase.getValueAbsolute, if_neg hin, hmiss', if_neg hfp, hcalc]
    have hfirst : ind.getValueAbsolute pos
        = .ok (some v, { ind with cache := .fifo c' }, true) := by
      rw [hpre, hc]
      simp only [CacheImpl.putValue]
      rw [hput]
      rfl
    refine ⟨{ ind with cache := .fifo c' }, ?_⟩
    rw [TechnicalIndicatorBase.callN, hfirst]
    have hrest := callN_hit { ind with cache := .fifo c' } pos v m
      (by simpa using hin) (by rw [CacheImpl.getCached?]; exact hv')
    simp [Except.bind, Except.map, hrest, List.replicate_succ]

/-- With `NoCache` every in-bounds call recomputes. -/
theorem callN_noCache (ind : TechnicalIndicatorBase) (pos : Int) (n : Nat)
    (hc : ind.cache = .noCache)
    (hin : ¬ (pos < ind.firstValidPos ∨ ind.length ≤ pos))
    (hfp : ¬ pos - ind.windowSize + 1 < 0) :
    ind.callN pos n
      = .ok (List.replicate n (ind.calculateValue (pos - ind.windowSize + 1) pos), ind, n) := by
  have hone : ind.getValueAbsolute pos
      = .ok (ind.calculateValue (pos - ind.windowSize + 1) pos, ind, true) := by
    rw [TechnicalIndicatorBase.getValueAbsolute, if_neg hin, hc, CacheImpl.getCached?,
      if_neg hfp]
    cases hcalc : ind.calculateValue (pos - ind.windowSize + 1) pos with
    | none => rfl
    | some v =>
      have hind : { ind with cache := CacheImpl.noCache } = ind := by
        cases ind with
        | mk w cch f l calcv =>
          simp only at hc
          rw [hc]
      simp only [CacheImpl.putValue, Except.map, hind]
  induction n with
  | zero => rfl
  | succ m ih =>
    rw [TechnicalIndicatorBase.callN, hone]
    simp [Except.bind, Except.map, ih, List.replicate_succ]

/-- In-bounds miss where `calculateValue` returns absent: absent is returned,
nothing is cached and the state is unchanged. -/
theorem getValueAbsolute_calc_none (ind : TechnicalIndicatorBase) (pos : Int)
    (hin : ¬ (pos < ind.firstValidPos ∨ ind.length ≤ pos))
    (hfp : ¬ pos - ind.windowSize + 1 < 0)
    (hmiss : ind.cache.getCached? pos = none)
    (hcalc : ind.calculateValue (pos - ind.windowSize + 1) pos = none) :
    ind.getValueAbsolute pos = .ok (none, ind, true) := by
  rw [TechnicalIndicatorBase.getValueAbsolute, if_neg hin, hmiss, if_neg hfp, hcalc]

theorem callN_calc_none (ind : TechnicalIndicatorBase) (pos : Int) (n : Nat)
    (hin : ¬ (pos < ind.firstValidPos ∨ ind.length ≤ pos))
    (hfp : ¬ pos - ind.windowSize + 1 < 0)
    (hmiss : ind.cache.getCached? pos = none)
    (hcalc : ind.calculateValue (pos - ind.windowSize + 1) pos = none) :
    ind.callN pos n = .ok (List.replicate n none, ind, n) := by
  induction n with
  | zero => rfl
  | succ m ih =>
    rw [TechnicalIndicatorBase.callN,
      getValueAbsolute_calc_none ind pos hin hfp hmiss hcalc]
    simp [Except.bind, Except.map, ih, List.replicate_succ]

/-- A successful `getValueAbsolute` call that changed the state must have
returned (and stored) a present value. -/
theorem getValueAbsolute_changes_only_present (ind : TechnicalIndicatorBase)
    (pos : Int) (r : Option ℚ) (ind' : TechnicalIndicatorBase) (b : Bool)
    (h : ind.getValueAbsolute pos = .ok (r, ind', b)) (hne : ind' ≠ ind) :
    ∃ u, r = some u := by
  by_cases h1 : pos < ind.firstValidPos ∨ ind.length ≤ pos
  · have heval : ind.getValueAbsolute pos = .ok (none, ind, false) := by
      rw [TechnicalIndicatorBase.getValueAbsolute, if_pos h1]
    rw [heval] at h
    obtain ⟨-, h2, -⟩ : r = none ∧ ind' = ind ∧ b = false := by
      simpa [Prod.ext_iff] using h.symm
    exact absurd h2 hne
  · cases hcv : ind.cache.getCached? pos with
    | some v =>
      rw [getValueAbsolute_hit ind pos v h1 hcv] at h
      obtain ⟨-, h2, -⟩ : r = some v ∧ ind' = ind ∧ b = false := by
        simpa [Prod.ext_iff] using h.symm
      exact absurd h2 hne
    | none =>
      by_cases h2 : pos - ind.windowSize + 1 < 0
      · have heval : ind.getValueAbsolute pos = .error () := by
          rw [TechnicalIndicatorBase.getValueAbsolute, if_neg h1, hcv, if_pos h2]
        rw [heval] at h
        exact absurd h (by simp)
      · cases hcalc : ind.calculateValue (pos - ind.windowSize + 1) pos with
        | none =>
          rw [getValueAbsolute_calc_none ind pos h1 h2 hcv hcalc] at h
          obtain ⟨-, h3, -⟩ : r = none ∧ ind' = ind ∧ b = true := by
            simpa [Prod.ext_iff] using h.symm
          exact absurd h3 hne
        | some v =>
          have hpre : ind.getValueAbsolute pos
              = (ind.cache.putValue pos v).map
                  (fun cc => (some v, { ind with cache := cc }, true)) := by
            rw [TechnicalIndicatorBase.getValueAbsolute, if_neg h1, hcv, if_neg h2, hcalc]
          rw [hpre] at h
          cases hput : ind.cache.putValue pos v with
          | error e =>
            rw [hput] at h
            exact absurd h (by simp [Except.map])
          | ok c' =>
            rw [hput] at h
            refine ⟨v, ?_⟩
            obtain ⟨h3, -, -⟩ : r = some v ∧ ind' = { ind with cache := c' } ∧ b = true := by
              simpa [Except.map, Prod.ext_iff] using h.symm
            exact h3

end IndicatorLemmas

/-- Claim C3: for every sequence of `getValueAbsolute` calls at the same
in-bounds position, `calculateValue` is invoked at most once while that
position remains cached — first conjunct: starting from a clean FIFO cache
missing the position, with a present computed value, `n` calls invoke
`calculateValue` exactly `min n 1` times and all return that value; second
conjunct: while the position is cached every call returns the cached value
with zero invocations; third conjunct: with `NoCache` (selected by
`cacheSize = 0`), every one of the `n` calls invokes `calculateValue`. -/
theorem cache_at_most_once_computation :
    (∀ (ind : TechnicalIndicatorBase) (pos : Int) (c : FIFOCache Int ℚ) (v : ℚ) (n : Nat),
      ind.cache = .fifo c → Clean c → 0 < c.size →
      ¬ (pos < ind.firstValidPos ∨ ind.length ≤ pos) →
      ¬ pos - ind.windowSize + 1 < 0 →
      c.isCached pos = false →
      ind.calculateValue (pos - ind.windowSize + 1) pos = some v →
      ∃ ind', ind.callN pos n = .ok (List.replicate n (some v), ind', min n 1)) ∧
    (∀ (ind : TechnicalIndicatorBase) (pos : Int) (v : ℚ) (n : Nat),
      ¬ (pos < ind.firstValidPos ∨ ind.length ≤ pos) →
      ind.cache.getCached? pos = some v →
      ind.callN pos n = .ok (List.replicate n (some v), ind, 0)) ∧
    (∀ (ind : TechnicalIndicatorBase) (pos : Int) (n : Nat),
      ind.cache = .noCache →
      ¬ (pos < ind.firstValidPos ∨ ind.length ≤ pos) →
      ¬ pos - ind.windowSize + 1 < 0 →
      ind.callN pos n
        = .ok (List.replicate n (ind.calculateValue (pos - ind.windowSize + 1) pos), ind, n)) := by
  refine ⟨?_, ?_, ?_⟩
  · intro ind pos c v n hc hcl hsz hin hfp hmiss hcalc
    exact callN_miss_fifo ind pos c v n hc hcl hsz hin hfp hmiss hcalc
  · intro ind pos v n hin hv
    exact callN_hit ind pos v n hin hv
  · intro ind pos n hc hin hfp
    exact callN_noCache ind pos n hc hin hfp

/-- Witness for C3: a window-1 indicator over positions `[0, 5)` whose range
computation always yields `7`; three calls at position 2 with a fresh FIFO
cache compute once, two calls with position 2 pre-cached at `9` compute zero
times, and three calls with `NoCache` compute three times. -/
theorem cache_at_most_once_computation_witness :
    (TechnicalIndicatorBase.callN
        ⟨1, .fifo ⟨4, [], []⟩, 0, 5, fun _ _ => some 7⟩ 2 3).map
        (fun r => (r.1, r.2.2))
      = .ok ([some 7, some 7, some 7], 1) ∧
    TechnicalIndicatorBase.callN
        ⟨1, .fifo ⟨4, [(2, 9)], [2]⟩, 0, 5, fun _ _ => some 7⟩ 2 2
      = .ok ([some 9, some 9], ⟨1, .fifo ⟨4, [(2, 9)], [2]⟩, 0, 5, fun _ _ => some 7⟩, 0) ∧
    TechnicalIndicatorBase.callN
        ⟨1, .noCache, 0, 5, fun _ _ => some 7⟩ 2 3
      = .ok ([some 7, some 7, some 7], ⟨1, .noCache, 0, 5, fun _ _ => some 7⟩, 3) := by
  refine ⟨?_, ?_, ?_⟩
  · obtain ⟨ind', h⟩ := cache_at_most_once_computation.1
      ⟨1, .fifo ⟨4, [], []⟩, 0, 5, fun _ _ => some 7⟩ 2 ⟨4, [], []⟩ 7 3
      rfl (by refine ⟨rfl, ?_, ?_⟩ <;> decide) (by decide)
      (by decide) (by decide) (by decide) rfl
    rw [h]
    rfl
  · exact cache_at_most_once_computation.2.1
      ⟨1, .fifo ⟨4, [(2, 9)], [2]⟩, 0, 5, fun _ _ => some 7⟩ 2 9 2 (by decide) rfl
  · exact cache_at_most_once_computation.2.2
      ⟨1, .noCache, 0, 5, fun _ _ => some 7⟩ 2 3 rfl (by decide) (by decide)

/-- Claim C4: for every position below `getFirstValidPos()` or at or beyond
`getLength()`, `getValueAbsolute` returns absent, does not invoke
`calculateValue` and leaves the indicator (in particular its cache)
unchanged, whatever the window size, cache and range computation are. -/
theorem out_of_bounds_returns_absent (ind : TechnicalIndicatorBase) (pos : Int)
    (h : pos < ind.firstValidPos ∨ ind.length ≤ pos) :
    ind.getValueAbsolute pos = .ok (none, ind, false) := by
  rw [TechnicalIndicatorBase.getValueAbsolute, if_pos h]

/-- Witness for C4: position 1 is below the first valid position 2, and
position 9 is beyond length 4, of a window-3 indicator. -/
theorem out_of_bounds_returns_absent_witness :
    TechnicalIndicatorBase.getValueAbsolute
        ⟨3, .fifo ⟨512, [], []⟩, 2, 4, fun _ _ => some 1⟩ 1
      = .ok (none, ⟨3, .fifo ⟨512, [], []⟩, 2, 4, fun _ _ => some 1⟩, false) ∧
    TechnicalIndicatorBase.getValueAbsolute
        ⟨3, .fifo ⟨512, [], []⟩, 2, 4, fun _ _ => some 1⟩ 9
      = .ok (none, ⟨3, .fifo ⟨512, [], []⟩, 2, 4, fun _ _ => some 1⟩, false) :=
  ⟨out_of_bounds_returns_absent _ 1 (Or.inl (by decide)),
   out_of_bounds_returns_absent _ 9 (Or.inr (by decide))⟩

/-- Claim C5: when `calculateValue` returns absent at an in-bounds uncached
position, `getValueAbsolute` returns absent and leaves the state unchanged,
so all of `n` repeated calls invoke `calculateValue` again (first conjunct);
and any successful call that does change the state returned a present value —
only present results are ever stored (second conjunct). -/
theorem absent_results_never_cached :
    (∀ (ind : TechnicalIndicatorBase) (pos : Int) (n : Nat),
      ¬ (pos < ind.firstValidPos ∨ ind.length ≤ pos) →
      ¬ pos - ind.windowSize + 1 < 0 →
      ind.cache.getCached? pos = none →
      ind.calculateValue (pos - ind.windowSize + 1) pos = none →
      ind.callN pos n = .ok (List.replicate n none, ind, n)) ∧
    (∀ (ind : TechnicalIndicatorBase) (pos : Int) (r : Option ℚ)
        (ind' : TechnicalIndicatorBase) (b : Bool),
      ind.getValueAbsolute pos = .ok (r, ind', b) → ind' ≠ ind →
      ∃ u, r = some u) := by
  constructor
  · intro ind pos n hin hfp hmiss hcalc
    exact callN_calc_none ind pos n hin hfp hmiss hcalc
  · intro ind pos r ind' b h hne
    exact getValueAbsolute_changes_only_present ind pos r ind' b h hne

/-- Witness for C5: a window-1 indicator whose range computation yields
absent is queried twice at in-bounds position 2 — both calls recompute, the
state is unchanged; and a call that does change the state (the C3 witness
indicator, whose computation yields `7`) returned a present value. -/
theorem absent_results_never_cached_witness :
    TechnicalIndicatorBase.callN
        ⟨1, .fifo ⟨4, [], []⟩, 0, 5, fun _ _ => none⟩ 2 2
      = .ok ([none, none], ⟨1, .fifo ⟨4, [], []⟩, 0, 5, fun _ _ => none⟩, 2) ∧
    ∃ u : ℚ, (some (7 : ℚ)) = some u := by
  constructor
  · exact absent_results_never_cached.1
      ⟨1, .fifo ⟨4, [], []⟩, 0, 5, fun _ _ => none⟩ 2 2 (by decide) (by decide) rfl rfl
  · refine absent_results_never_cached.2
      ⟨1, .fifo ⟨4, [], []⟩, 0, 5, fun _ _ => some 7⟩ 2 (some 7)
      ⟨1, .fifo ⟨4, [(2, 7)], [2]⟩, 0, 5, fun _ _ => some 7⟩ true rfl ?_
    intro heq
    have hcc := congrArg TechnicalIndicatorBase.cache heq
    simp only [CacheImpl.fifo.injEq, FIFOCache.mk.injEq] at hcc
    exact absurd hcc.2.1 (by simp)

/-- The last `n` elements of a list (all of it when it is shorter):
identifies the contents of a full sliding window. -/
def lastN (n : Nat) (xs : List ℚ) : List ℚ :=
  xs.drop (xs.length - n)

/-- One exponential-smoothing step as the spec states it:
`newValue = (newestSample - previousValue) * multiplier + previousValue`. -/
def emaStep (m prev x : ℚ) : ℚ :=
  (x - prev) * m + prev

/-- Modelled from the spec's formula (section 4.6 / claim C9): the exponential
moving average over the present samples `xs` with window `N` and multiplier
`m` — absent before `N` present samples, seeded with the simple average of the
first `N`, then folded with `emaStep` over the remainder.  Used as the
reference against which the incremental `EMAEventWindow` is compared. -/
def emaFormulaSpec (N : Nat) (m : ℚ) (xs : List ℚ) : Option ℚ :=
  if xs.length < N then none
  else some ((xs.drop N).foldl (emaStep m) (calculate_sma (xs.take N) 0 N))

/-- Push a whole sample sequence through a bare `EventWindow`, oldest first. -/
def EventWindow.pushList (w : EventWindow) (samples : List (Option ℚ)) : EventWindow :=
  samples.foldl EventWindow.onNewValue w

section WindowLemmas

theorem lastN_length (n : Nat) (xs : List ℚ) :
    (lastN n xs).length = min xs.length n := by
  simp only [lastN, List.length_drop]
  omega

theorem lastN_of_le (n : Nat) (xs : List ℚ) (h : xs.length ≤ n) :
    lastN n xs = xs := by
  simp only [lastN, Nat.sub_eq_zero_of_le h, List.drop_zero]

theorem lastN_append (n : Nat) (xs : List ℚ) (x : ℚ) (hn : 0 < n)
    (h : n ≤ xs.length) :
    lastN n (xs ++ [x]) = (lastN n xs).tail ++ [x] := by
  have h1 : xs.length + 1 - n ≤ xs.length := by omega
  rw [lastN, List.length_append, List.length_singleton,
    List.drop_append_of_le_length h1, lastN, List.tail_drop]
  have h2 : xs.length - n + 1 = xs.length + 1 - n := by omega
  rw [h2]

theorem lastN_append_small (n : Nat) (xs : List ℚ) (x : ℚ)
    (h : xs.length < n) :
    lastN n (xs ++ [x]) = xs ++ [x] := by
  apply lastN_of_le
  simp only [List.length_append, List.length_singleton]
  omega

theorem EventWindow.pushList_append (w : EventWindow) (l1 l2 : List (Option ℚ)) :
    EventWindow.pushList w (l1 ++ l2)
      = EventWindow.pushList (EventWindow.pushList w l1) l2 :=
  List.foldl_append _ _ l1 l2

/-- Buffer characterization of a bare event window fed from empty: the buffer
holds the last `N` present samples and the window size is unchanged. -/
theorem EventWindow.pushList_values (N : Nat) (hN : 0 < N)
    (samples : List (Option ℚ)) :
    (EventWindow.pushList ⟨N, []⟩ samples).windowSize = N ∧
    (EventWindow.pushList ⟨N, []⟩ samples).values
      = lastN N (samples.filterMap id) := by
  induction samples using List.reverseRecOn with
  | nil => exact ⟨rfl, by simp [lastN, EventWindow.pushList]⟩
  | append_singleton l v ih =>
    rw [EventWindow.pushList_append]
    obtain ⟨ihw, ihv⟩ := ih
    cases v with
    | none =>
      simpa [EventWindow.pushList, EventWindow.onNewValue] using ⟨ihw, ihv⟩
    | some x =>
      have hstep : EventWindow.pushList (EventWindow.pushList ⟨N, []⟩ l) [some x]
          = (EventWindow.pushList ⟨N, []⟩ l).append1 x := rfl
      rw [hstep]
      refine ⟨by rw [EventWindow.append1, ihw], ?_⟩
      rw [EventWindow.append1, ihw, ihv]
      by_cases hfull : N ≤ (l.filterMap id).length
      · have hlen : (lastN N (l.filterMap id)).length = N := by
          rw [lastN_length]
          omega
        rw [if_pos (by rw [List.length_append, hlen]; simp)]
        rw [List.filterMap_append]
        simp only [List.filterMap_cons, id, List.filterMap_nil]
        rw [lastN_append N _ x hN hfull]
        obtain ⟨a, as, ha⟩ : ∃ a as, lastN N (l.filterMap id) = a :: as := by
          cases hc : lastN N (l.filterMap id) with
          | nil => rw [hc] at hlen; simp at hlen; omega
          | cons a as => exact ⟨a, as, rfl⟩
        rw [ha]
        rfl
      · have hlt : (l.filterMap id).length < N := not_le.mp hfull
        have hlast : lastN N (l.filterMap id) = l.filterMap id :=
          lastN_of_le N _ (le_of_lt hlt)
        rw [hlast]
        rw [if_neg (by simp only [List.length_append, List.length_singleton]; omega)]
        rw [List.filterMap_append]
        simp only [List.filterMap_cons, id, List.filterMap_nil]
        rw [lastN_append_small N _ x hlt]

/-- The buffer length is the number of present samples, capped at `N`. -/
theorem EventWindow.pushList_length (N : Nat) (hN : 0 < N)
    (samples : List (Option ℚ)) :
    (EventWindow.pushList ⟨N, []⟩ samples).values.length
      = min (samples.filterMap id).length N := by
  rw [(EventWindow.pushList_values N hN samples).2, lastN_length]

end WindowLemmas

section SMALemmas

theorem sma_onNewValue_none (s : SMAEventWindow) : s.onNewValue none = s :=
  rfl

theorem sma_onNewValue_notfull (s : SMAEventWindow) (x : ℚ)
    (h : ¬ (s.ew.onNewValue (some x)).values.length = (s.ew.onNewValue (some x)).windowSize) :
    s.onNewValue (some x) = ⟨s.ew.onNewValue (some x), s.value⟩ := by
  simp only [SMAEventWindow.onNewValue]
  rw [if_neg h]

theorem sma_onNewValue_seed (s : SMAEventWindow) (x : ℚ)
    (hv : s.value = none)
    (h : (s.ew.onNewValue (some x)).values.length = (s.ew.onNewValue (some x)).windowSize) :
    s.onNewValue (some x)
      = ⟨s.ew.onNewValue (some x),
          some (calculate_sma (s.ew.onNewValue (some x)).values 0
            (s.ew.onNewValue (some x)).windowSize)⟩ := by
  simp only [SMAEventWindow.onNewValue]
  rw [if_pos h, hv]

theorem sma_onNewValue_incr (s : SMAEventWindow) (x old : ℚ)
    (hv : s.value = some old)
    (h : (s.ew.onNewValue (some x)).values.length = (s.ew.onNewValue (some x)).windowSize) :
    s.onNewValue (some x)
      = ⟨s.ew.onNewValue (some x),
          some (old + x / (s.ew.windowSize : ℚ)
            - ((s.ew.values.head?).getD 0) / (s.ew.windowSize : ℚ))⟩ := by
  simp only [SMAEventWindow.onNewValue]
  rw [if_pos h, hv]

theorem sma_onNewValue_ew (s : SMAEventWindow) (v : Option ℚ) :
    (s.onNewValue v).ew = s.ew.onNewValue v := by
  cases v with
  | none => rfl
  | some x =>
    by_cases h : (s.ew.onNewValue (some x)).values.length
        = (s.ew.onNewValue (some x)).windowSize
    · cases hsv : s.value with
      | none => rw [sma_onNewValue_seed s x hsv h]
      | some old => rw [sma_onNewValue_incr s x old hsv h]
    · rw [sma_onNewValue_notfull s x h]

theorem sma_pushList_concat (s : SMAEventWindow)
    (l : List (Option ℚ)) (v : Option ℚ) :
    SMAEventWindow.pushList s (l ++ [v]) = (SMAEventWindow.pushList s l).onNewValue v := by
  rw [SMAEventWindow.pushList, List.foldl_append]
  rfl

theorem sma_pushList_ew (s : SMAEventWindow) (samples : List (Option ℚ)) :
    (SMAEventWindow.pushList s samples).ew = EventWindow.pushList s.ew samples := by
  induction samples generalizing s with
  | nil => rfl
  | cons v t ih =>
    rw [SMAEventWindow.pushList, List.foldl_cons, ← SMAEventWindow.pushList,
      ih (s.onNewValue v), sma_onNewValue_ew]
    rfl

/-- Running-value invariant of the simple moving average accumulator: the held
value is absent until `N` present samples arrived, and from then on equals the
sum of the buffered last `N` present samples divided by `N`. -/
theorem sma_pushList_value (N : Nat) (hN : 0 < N)
    (samples : List (Option ℚ)) :
    (SMAEventWindow.pushList ⟨⟨N, []⟩, none⟩ samples).value
      = if N ≤ (samples.filterMap id).length
        then some ((lastN N (samples.filterMap id)).sum / (N : ℚ))
        else none := by
  induction samples using List.reverseRecOn with
  | nil =>
    rw [if_neg (by simp; omega)]
    rfl
  | append_singleton l v ih =>
    rw [sma_pushList_concat]
    have hew : (SMAEventWindow.pushList ⟨⟨N, []⟩, none⟩ l).ew
        = EventWindow.pushList ⟨N, []⟩ l := sma_pushList_ew _ l
    have hvals : (SMAEventWindow.pushList ⟨⟨N, []⟩, none⟩ l).ew.values
        = lastN N (l.filterMap id) := by
      rw [hew]
      exact (EventWindow.pushList_values N hN l).2
    have hws : (SMAEventWindow.pushList ⟨⟨N, []⟩, none⟩ l).ew.windowSize = N := by
      rw [hew]
      exact (EventWindow.pushList_values N hN l).1
    cases v with
    | none =>
      rw [sma_onNewValue_none, ih]
      have hP : (l ++ [none]).filterMap (id : Option ℚ → Option ℚ) = l.filterMap id := by
        simp
      rw [hP]
    | some x =>
      have hP : (l ++ [some x]).filterMap (id : Option ℚ → Option ℚ)
          = l.filterMap id ++ [x] := by simp
      have hew1 : (SMAEventWindow.pushList ⟨⟨N, []⟩, none⟩ l).ew.onNewValue (some x)
          = EventWindow.pushList ⟨N, []⟩ (l ++ [some x]) := by
        rw [hew, EventWindow.pushList_append]
        rfl
      have hv1 : ((SMAEventWindow.pushList ⟨⟨N, []⟩, none⟩ l).ew.onNewValue (some x)).values
          = lastN N (l.filterMap id ++ [x]) := by
        rw [hew1, (EventWindow.pushList_values N hN (l ++ [some x])).2, hP]
      have hw1 : ((SMAEventWindow.pushList ⟨⟨N, []⟩, none⟩ l).ew.onNewValue (some x)).windowSize
          = N := by
        rw [hew1]
        exact (EventWindow.pushList_values N hN (l ++ [some x])).1
      have hl1 : ((SMAEventWindow.pushList ⟨⟨N, []⟩, none⟩ l).ew.onNewValue (some x)).values.length
          = min ((l.filterMap id).length + 1) N := by
        rw [hv1, lastN_length, List.length_append, List.length_singleton]
      rw [hP, List.length_append, List.length_singleton]
      by_cases hcase : N ≤ (l.filterMap id).length + 1
      · have hcond : ((SMAEventWindow.pushList ⟨⟨N, []⟩, none⟩ l).ew.onNewValue (some x)).values.length
            = ((SMAEventWindow.pushList ⟨⟨N, []⟩, none⟩ l).ew.onNewValue (some x)).windowSize := by
          rw [hl1, hw1]
          omega
        by_cases hfull : N ≤ (l.filterMap id).length
        · -- incremental update step
          have hlenP : (lastN N (l.filterMap id)).length = N := by
            rw [lastN_length]
            omega
          obtain ⟨f, rest, hfr⟩ : ∃ f rest, lastN N (l.filterMap id) = f :: rest := by
            cases hc : lastN N (l.filterMap id) with
            | nil => rw [hc] at hlenP; simp at hlenP; omega
            | cons f rest => exact ⟨f, rest, rfl⟩
          have hsv : (SMAEventWindow.pushList ⟨⟨N, []⟩, none⟩ l).value
              = some ((lastN N (l.filterMap id)).sum / (N : ℚ)) := by
            rw [ih, if_pos hfull]
          rw [sma_onNewValue_incr _ x _ hsv hcond]
          show some _ = _
          rw [if_pos hcase, hws, hvals, hfr]
          simp only [List.head?_cons, Option.getD_some]
          rw [lastN_append N _ x hN hfull, hfr, List.tail_cons]
          congr 1
          rw [List.sum_cons, List.sum_append, List.sum_cons, List.sum_nil]
          ring
        · -- the window becomes full exactly now: seed by full summation
          have hseedlen : (l.filterMap id).length + 1 = N := by omega
          have hsv : (SMAEventWindow.pushList ⟨⟨N, []⟩, none⟩ l).value = none := by
            rw [ih, if_neg hfull]
          rw [sma_onNewValue_seed _ x hsv hcond]
          show some _ = _
          rw [if_pos hcase, hv1, hw1]
          have hlen' : (lastN N (l.filterMap id ++ [x])).length = N := by
            rw [lastN_length, List.length_append, List.length_singleton]
            omega
          rw [calculate_sma]
          congr 2
          rw [List.drop_zero, Nat.sub_zero, List.take_of_length_le (le_of_eq hlen')]
      · have hcond : ¬ ((SMAEventWindow.pushList ⟨⟨N, []⟩, none⟩ l).ew.onNewValue (some x)).values.length
            = ((SMAEventWindow.pushList ⟨⟨N, []⟩, none⟩ l).ew.onNewValue (some x)).windowSize := by
          rw [hl1, hw1]
          omega
        rw [sma_onNewValue_notfull _ x hcond]
        show (SMAEventWindow.pushList ⟨⟨N, []⟩, none⟩ l).value = _
        rw [ih, if_neg (by omega), if_neg (by omega)]

end SMALemmas

/-- Claim C6: for every finite sequence of samples pushed into an
`SMAEventWindow` with window size `N > 0`, whenever at least `N` present
samples have arrived (the buffer is full) the incrementally maintained value
equals the direct summation-and-divide average — the code's own
`calculate_sma` — of the last `N` present samples, exactly over the
rationals; before that the value is absent.  The third conjunct ties the
start state to the constructor. -/
theorem sma_incremental_matches_direct (N : Nat) (hN : 0 < N)
    (samples : List (Option ℚ)) :
    (N ≤ (samples.filterMap id).length →
      (SMAEventWindow.pushList ⟨⟨N, []⟩, none⟩ samples).value
        = some (calculate_sma (lastN N (samples.filterMap id)) 0 N)) ∧
    ((samples.filterMap id).length < N →
      (SMAEventWindow.pushList ⟨⟨N, []⟩, none⟩ samples).value = none) ∧
    (∀ p : Int, 0 < p → SMAEventWindow.build p = .ok ⟨⟨p.toNat, []⟩, none⟩) := by
  refine ⟨?_, ?_, ?_⟩
  · intro h
    rw [sma_pushList_value N hN samples, if_pos h]
    have hlen : (lastN N (samples.filterMap id)).length = N := by
      rw [lastN_length]
      omega
    rw [calculate_sma, List.drop_zero, Nat.sub_zero,
      List.take_of_length_le (le_of_eq hlen)]
  · intro h
    rw [sma_pushList_value N hN samples, if_neg (by omega)]
  · intro p hp
    rw [SMAEventWindow.build, if_pos hp, EventWindow.build, if_pos hp]
    rfl

/-- Witness for C6: samples `[1,2,3,4,5]` with `N = 3` give the running
values `2, 3, 4` at the three positions where the buffer is full. -/
theorem sma_incremental_matches_direct_witness :
    (SMAEventWindow.pushList ⟨⟨3, []⟩, none⟩ [some 1, some 2, some 3]).value
        = some 2 ∧
    (SMAEventWindow.pushList ⟨⟨3, []⟩, none⟩ [some 1, some 2, some 3, some 4]).value
        = some 3 ∧
    (SMAEventWindow.pushList ⟨⟨3, []⟩, none⟩
        [some 1, some 2, some 3, some 4, some 5]).value = some 4 := by
  refine ⟨?_, ?_, ?_⟩
  · exact ((sma_incremental_matches_direct 3 (by decide) _).1 (by decide)).trans
      (by norm_num [calculate_sma, lastN, List.filterMap_cons, List.filterMap_nil])
  · exact ((sma_incremental_matches_direct 3 (by decide) _).1 (by decide)).trans
      (by norm_num [calculate_sma, lastN, List.filterMap_cons, List.filterMap_nil])
  · exact ((sma_incremental_matches_direct 3 (by decide) _).1 (by decide)).trans
      (by norm_num [calculate_sma, lastN, List.filterMap_cons, List.filterMap_nil])

section EMALemmas

theorem ema_onNewValue_none (s : EMAEventWindow) : s.onNewValue none = s :=
  rfl

theorem ema_onNewValue_notfull (s : EMAEventWindow) (x : ℚ)
    (h : ¬ (s.ew.onNewValue (some x)).values.length = (s.ew.onNewValue (some x)).windowSize) :
    s.onNewValue (some x) = ⟨s.ew.onNewValue (some x), s.multiplier, s.value⟩ := by
  simp only [EMAEventWindow.onNewValue]
  rw [if_neg h]

theorem ema_onNewValue_seed (s : EMAEventWindow) (x : ℚ)
    (hv : s.value = none)
    (h : (s.ew.onNewValue (some x)).values.length = (s.ew.onNewValue (some x)).windowSize) :
    s.onNewValue (some x)
      = ⟨s.ew.onNewValue (some x), s.multiplier,
          some (calculate_sma (s.ew.onNewValue (some x)).values 0
            (s.ew.onNewValue (some x)).values.length)⟩ := by
  simp only [EMAEventWindow.onNewValue]
  rw [if_pos h, hv]

theorem ema_onNewValue_incr (s : EMAEventWindow) (x old : ℚ)
    (hv : s.value = some old)
    (h : (s.ew.onNewValue (some x)).values.length = (s.ew.onNewValue (some x)).windowSize) :
    s.onNewValue (some x)
      = ⟨s.ew.onNewValue (some x), s.multiplier,
          some ((x - old) * s.multiplier + old)⟩ := by
  simp only [EMAEventWindow.onNewValue]
  rw [if_pos h, hv]

theorem ema_onNewValue_ew (s : EMAEventWindow) (v : Option ℚ) :
    (s.onNewValue v).ew = s.ew.onNewValue v := by
  cases v with
  | none => rfl
  | some x =>
    by_cases h : (s.ew.onNewValue (some x)).values.length
        = (s.ew.onNewValue (some x)).windowSize
    · cases hsv : s.value with
      | none => rw [ema_onNewValue_seed s x hsv h]
      | some old => rw [ema_onNewValue_incr s x old hsv h]
    · rw [ema_onNewValue_notfull s x h]

theorem ema_onNewValue_multiplier (s : EMAEventWindow) (v : Option ℚ) :
    (s.onNewValue v).multiplier = s.multiplier := by
  cases v with
  | none => rfl
  | some x =>
    by_cases h : (s.ew.onNewValue (some x)).values.length
        = (s.ew.onNewValue (some x)).windowSize
    · cases hsv : s.value with
      | none => rw [ema_onNewValue_seed s x hsv h]
      | some old => rw [ema_onNewValue_incr s x old hsv h]
    · rw [ema_onNewValue_notfull s x h]

theorem ema_pushList_concat (s : EMAEventWindow)
    (l : List (Option ℚ)) (v : Option ℚ) :
    EMAEventWindow.pushList s (l ++ [v]) = (EMAEventWindow.pushList s l).onNewValue v := by
  rw [EMAEventWindow.pushList, List.foldl_append]
  rfl

theorem ema_pushList_ew (s : EMAEventWindow) (samples : List (Option ℚ)) :
    (EMAEventWindow.pushList s samples).ew = EventWindow.pushList s.ew samples := by
  induction samples generalizing s with
  | nil => rfl
  | cons v t ih =>
    rw [EMAEventWindow.pushList, List.foldl_cons, ← EMAEventWindow.pushList,
      ih (s.onNewValue v), ema_onNewValue_ew]
    rfl

theorem ema_pushList_multiplier (s : EMAEventWindow)
    (samples : List (Option ℚ)) :
    (EMAEventWindow.pushList s samples).multiplier = s.multiplier := by
  induction samples generalizing s with
  | nil => rfl
  | cons v t ih =>
    rw [EMAEventWindow.pushList, List.foldl_cons, ← EMAEventWindow.pushList,
      ih (s.onNewValue v), ema_onNewValue_multiplier]

/-- Running-value invariant of the exponential moving average accumulator:
the held value equals the spec's recurrence (seed with the simple average of
the first `N` present samples, then one smoothing step per later present
sample). -/
theorem ema_pushList_value (N : Nat) (hN : 0 < N) (m : ℚ)
    (samples : List (Option ℚ)) :
    (EMAEventWindow.pushList ⟨⟨N, []⟩, m, none⟩ samples).value
      = emaFormulaSpec N m (samples.filterMap id) := by
  induction samples using List.reverseRecOn with
  | nil =>
    rw [emaFormulaSpec, if_pos (by simpa using hN)]
    rfl
  | append_singleton l v ih =>
    rw [ema_pushList_concat]
    have hew : (EMAEventWindow.pushList ⟨⟨N, []⟩, m, none⟩ l).ew
        = EventWindow.pushList ⟨N, []⟩ l := ema_pushList_ew _ l
    have hmul : (EMAEventWindow.pushList ⟨⟨N, []⟩, m, none⟩ l).multiplier = m :=
      ema_pushList_multiplier _ l
    cases v with
    | none =>
      rw [ema_onNewValue_none, ih]
      have hP : (l ++ [none]).filterMap (id : Option ℚ → Option ℚ) = l.filterMap id := by
        simp
      rw [hP]
    | some x =>
      have hP : (l ++ [some x]).filterMap (id : Option ℚ → Option ℚ)
          = l.filterMap id ++ [x] := by simp
      have hew1 : (EMAEventWindow.pushList ⟨⟨N, []⟩, m, none⟩ l).ew.onNewValue (some x)
          = EventWindow.pushList ⟨N, []⟩ (l ++ [some x]) := by
        rw [hew, EventWindow.pushList_append]
        rfl
      have hv1 : ((EMAEventWindow.pushList ⟨⟨N, []⟩, m, none⟩ l).ew.onNewValue (some x)).values
          = lastN N (l.filterMap id ++ [x]) := by
        rw [hew1, (EventWindow.pushList_values N hN (l ++ [some x])).2, hP]
      have hw1 : ((EMAEventWindow.pushList ⟨⟨N, []⟩, m, none⟩ l).ew.onNewValue (some x)).windowSize
          = N := by
        rw [hew1]
        exact (EventWindow.pushList_values N hN (l ++ [some x])).1
      have hl1 : ((EMAEventWindow.pushList ⟨⟨N, []⟩, m, none⟩ l).ew.onNewValue (some x)).values.length
          = min ((l.filterMap id).length + 1) N := by
        rw [hv1, lastN_length, List.length_append, List.length_singleton]
      rw [hP]
      by_cases hcase : N ≤ (l.filterMap id).length + 1
      · have hcond : ((EMAEventWindow.pushList ⟨⟨N, []⟩, m, none⟩ l).ew.onNewValue (some x)).values.length
            = ((EMAEventWindow.pushList ⟨⟨N, []⟩, m, none⟩ l).ew.onNewValue (some x)).windowSize := by
          rw [hl1, hw1]
          omega
        by_cases hfull : N ≤ (l.filterMap id).length
        · -- smoothing step
          have hsv : (EMAEventWindow.pushList ⟨⟨N, []⟩, m, none⟩ l).value
              = some (((l.filterMap id).drop N).foldl (emaStep m)
                  (calculate_sma ((l.filterMap id).take N) 0 N)) := by
            rw [ih, emaFormulaSpec, if_neg (by omega)]
          rw [ema_onNewValue_incr _ x _ hsv hcond]
          show some _ = _
          rw [hmul, emaFormulaSpec,
            if_neg (by rw [List.length_append, List.length_singleton]; omega),
            List.take_append_of_le_length hfull,
            List.drop_append_of_le_length hfull, List.foldl_append]
          rfl
        · -- the window becomes full exactly now: seed by full summation
          have hsv : (EMAEventWindow.pushList ⟨⟨N, []⟩, m, none⟩ l).value = none := by
            rw [ih, emaFormulaSpec, if_pos (by omega)]
          rw [ema_onNewValue_seed _ x hsv hcond]
          show some _ = _
          have hlen' : (l.filterMap id ++ [x]).length = N := by
            rw [List.length_append, List.length_singleton]
            omega
          have hlast : lastN N (l.filterMap id ++ [x]) = l.filterMap id ++ [x] :=
            lastN_of_le N _ (le_of_eq hlen')
          rw [hv1, hlast, emaFormulaSpec, if_neg (by omega),
            List.take_of_length_le (le_of_eq hlen'),
            List.drop_eq_nil_of_le (le_of_eq hlen'), List.foldl_nil, hlen']
      · have hcond : ¬ ((EMAEventWindow.pushList ⟨⟨N, []⟩, m, none⟩ l).ew.onNewValue (some x)).values.length
            = ((EMAEventWindow.pushList ⟨⟨N, []⟩, m, none⟩ l).ew.onNewValue (some x)).windowSize := by
          rw [hl1, hw1]
          omega
        rw [ema_onNewValue_notfull _ x hcond]
        show (EMAEventWindow.pushList ⟨⟨N, []⟩, m, none⟩ l).value = _
        rw [ih, emaFormulaSpec, if_pos (by omega), emaFormulaSpec,
          if_pos (by rw [List.length_append, List.length_singleton]; omega)]

end EMALemmas

/-- Claim C9, counterexample to the claim as stated: for samples
`[1,2,3,4,5]` with `N = 2` the value after the fourth sample is exactly
`7/2 = 3.5`, not "approximately 3.4166" (`41/12 = 3.41666…`): the two differ
by `1/12`, far beyond any approximation tolerance of `1/100`. -/
theorem ema_example_value_cex :
    (EMAEventWindow.pushList ⟨⟨2, []⟩, 2/3, none⟩
        [some 1, some 2, some 3, some 4]).value = some (7/2) ∧
    ¬ ((7 : ℚ)/2 - 41/12 < 1/100) := by
  constructor
  · rw [ema_pushList_value 2 (by decide) (2/3) _]
    norm_num [emaFormulaSpec, calculate_sma, emaStep,
      List.filterMap_cons, List.filterMap_nil]
  · norm_num

/-- Claim C9 (amended): the constructor with period `N > 1` stores multiplier
`2 / (N + 1)`; the running value follows exactly the stated recurrence — first
defined value is the simple average of the first `N` present samples, each
later present sample `x` yields `(x − previous) * multiplier + previous`
(`emaFormulaSpec`); and for samples `[1,2,3,4,5]` with `N = 2` the successive
values are `1.5, 2.5`, then `3.5` (not ≈3.4166), then `4.5`. -/
theorem ema_formula_amended :
    (∀ p : Int, 1 < p →
      EMAEventWindow.build p = .ok ⟨⟨p.toNat, []⟩, 2 / ((p : ℚ) + 1), none⟩) ∧
    (∀ (N : Nat) (m : ℚ) (samples : List (Option ℚ)), 0 < N →
      (EMAEventWindow.pushList ⟨⟨N, []⟩, m, none⟩ samples).value
        = emaFormulaSpec N m (samples.filterMap id)) ∧
    (EMAEventWindow.trace ⟨⟨2, []⟩, 2/3, none⟩
        [some 1, some 2, some 3, some 4, some 5]
      = [none, some (3/2), some (5/2), some (7/2), some (9/2)]) := by
  refine ⟨?_, ?_, ?_⟩
  · intro p hp
    rw [EMAEventWindow.build, if_pos hp, EventWindow.build, if_pos (by omega)]
    rfl
  · intro N m samples hN
    exact ema_pushList_value N hN m samples
  · norm_num [EMAEventWindow.trace, EMAEventWindow.onNewValue, EventWindow.onNewValue,
      EventWindow.append1, calculate_sma]

/-- Witness for the amended C9: the constructor at period 2 stores multiplier
`2/3`, and two present samples `1, 2` seed the value at their average `3/2`. -/
theorem ema_formula_amended_witness :
    EMAEventWindow.build 2 = .ok ⟨⟨2, []⟩, 2/3, none⟩ ∧
    (EMAEventWindow.pushList ⟨⟨2, []⟩, 2/3, none⟩ [some 1, some 2]).value
      = some (3/2) := by
  constructor
  · exact (ema_formula_amended.1 2 (by decide)).trans
      (by norm_num [show Int.toNat 2 = 2 from rfl])
  · exact (ema_formula_amended.2.1 2 (2/3) [some 1, some 2] (by decide)).trans
      (by norm_num [emaFormulaSpec, calculate_sma, List.filterMap_cons, List.filterMap_nil])

/-- Claim C7: every invalid configuration is rejected at construction time —
window size ≤ 0 for the bare event window, the SMA window and the indicator
base, period ≤ 1 for the exponential window, an empty weight list for the
weighted window, and a non-positive capacity for the bounded FIFO cache. -/
theorem construction_misuse_fatal :
    (∀ w : Int, w ≤ 0 → EventWindow.build w = .error ()) ∧
    (∀ c : Int, c ≤ 0 → FIFOCache.build (κ := Int) (α := ℚ) c = .error ()) ∧
    (∀ (w cs fvp len : Int) (f : Int → Int → Option ℚ), w ≤ 0 →
      TechnicalIndicatorBase.build w cs fvp len f = .error ()) ∧
    (∀ p : Int, p ≤ 0 → SMAEventWindow.build p = .error ()) ∧
    (∀ p : Int, p ≤ 1 → EMAEventWindow.build p = .error ()) ∧
    (WMAEventWindow.build [] = .error ()) := by
  refine ⟨?_, ?_, ?_, ?_, ?_, ?_⟩
  · intro w hw
    rw [EventWindow.build, if_neg (by omega)]
  · intro c hc
    rw [FIFOCache.build, if_neg (by omega)]
  · intro w cs fvp len f hw
    rw [TechnicalIndicatorBase.build, if_neg (by omega)]
  · intro p hp
    rw [SMAEventWindow.build, if_neg (by omega)]
  · intro p hp
    rw [EMAEventWindow.build, if_neg (by omega)]
  · rw [WMAEventWindow.build, if_neg (by simp)]

/-- Witness for C7 at concrete invalid configurations: window size 0,
capacity −1, indicator window 0, SMA period 0, EMA period 1, empty weights. -/
theorem construction_misuse_fatal_witness :
    EventWindow.build 0 = .error () ∧
    FIFOCache.build (κ := Int) (α := ℚ) (-1) = .error () ∧
    TechnicalIndicatorBase.build 0 512 0 0 (fun _ _ => none) = .error () ∧
    SMAEventWindow.build 0 = .error () ∧
    EMAEventWindow.build 1 = .error () ∧
    WMAEventWindow.build [] = .error () :=
  ⟨construction_misuse_fatal.1 0 (by decide),
   construction_misuse_fatal.2.1 (-1) (by decide),
   construction_misuse_fatal.2.2.1 0 512 0 0 (fun _ _ => none) (by decide),
   construction_misuse_fatal.2.2.2.1 0 (by decide),
   construction_misuse_fatal.2.2.2.2.1 1 (by decide),
   construction_misuse_fatal.2.2.2.2.2⟩

/-- Claim C8: pushing an absent sample leaves every accumulator completely
unchanged (bare event window, SMA, EMA, WMA), and the buffer length after any
sample sequence is the number of present samples capped at `N` — so the
buffer reaches `N` only once `N` present samples arrived and never exceeds
`N`, however many absent samples were interleaved. -/
theorem absent_sample_no_effect :
    (∀ w : EventWindow, w.onNewValue none = w) ∧
    (∀ s : SMAEventWindow, s.onNewValue none = s) ∧
    (∀ s : EMAEventWindow, s.onNewValue none = s) ∧
    (∀ s : WMAEventWindow, s.onNewValue none = s) ∧
    (∀ (N : Nat) (samples : List (Option ℚ)), 0 < N →
      (EventWindow.pushList ⟨N, []⟩ samples).values.length
        = min (samples.filterMap id).length N) := by
  refine ⟨?_, ?_, ?_, ?_, ?_⟩
  · intro w
    rfl
  · intro s
    rfl
  · intro s
    rfl
  · intro s
    rfl
  · intro N samples hN
    exact EventWindow.pushList_length N hN samples

/-- Witness for C8: an absent sample leaves a concrete SMA state unchanged,
and two present samples among two absent ones fill a window of size 2. -/
theorem absent_sample_no_effect_witness :
    SMAEventWindow.onNewValue ⟨⟨3, [5]⟩, some 9⟩ none = ⟨⟨3, [5]⟩, some 9⟩ ∧
    (EventWindow.pushList ⟨2, []⟩ [some 1, none, some 2, none]).values.length
      = min ([some (1 : ℚ), none, some 2, none].filterMap id).length 2 :=
  ⟨absent_sample_no_effect.2.1 ⟨⟨3, [5]⟩, some 9⟩,
   absent_sample_no_effect.2.2.2.2 2 [some 1, none, some 2, none] (by decide)⟩

/-- Claim C10: once the buffer has reached the window size it holds exactly
`N` values after every further push; consequently the SMA and EMA running
values, once present, never revert to absent on any later pushes. -/
theorem window_full_forever :
    (∀ (N : Nat) (samples extra : List (Option ℚ)), 0 < N →
      (EventWindow.pushList ⟨N, []⟩ samples).values.length = N →
      (EventWindow.pushList ⟨N, []⟩ (samples ++ extra)).values.length = N) ∧
    (∀ (N : Nat) (samples extra : List (Option ℚ)), 0 < N →
      (SMAEventWindow.pushList ⟨⟨N, []⟩, none⟩ samples).value.isSome = true →
      (SMAEventWindow.pushList ⟨⟨N, []⟩, none⟩ (samples ++ extra)).value.isSome = true) ∧
    (∀ (N : Nat) (m : ℚ) (samples extra : List (Option ℚ)), 0 < N →
      (EMAEventWindow.pushList ⟨⟨N, []⟩, m, none⟩ samples).value.isSome = true →
      (EMAEventWindow.pushList ⟨⟨N, []⟩, m, none⟩ (samples ++ extra)).value.isSome = true) := by
  refine ⟨?_, ?_, ?_⟩
  · intro N samples extra hN h
    rw [EventWindow.pushList_length N hN] at h
    rw [EventWindow.pushList_length N hN, List.filterMap_append, List.length_append]
    omega
  · intro N samples extra hN h
    rw [sma_pushList_value N hN] at h
    by_cases hc : N ≤ (samples.filterMap id).length
    · rw [sma_pushList_value N hN, List.filterMap_append, List.length_append,
        if_pos (by omega)]
      rfl
    · rw [if_neg hc] at h
      simp at h
  · intro N m samples extra hN h
    rw [ema_pushList_value N hN m, emaFormulaSpec] at h
    by_cases hc : (samples.filterMap id).length < N
    · rw [if_pos hc] at h
      simp at h
    · rw [ema_pushList_value N hN m, emaFormulaSpec, List.filterMap_append,
        List.length_append, if_neg (by omega)]
      rfl

/-- Witness for C10: a size-1 window full after one present sample stays full
through an absent and a present push; the SMA and EMA values stay present
likewise. -/
theorem window_full_forever_witness :
    (EventWindow.pushList ⟨1, []⟩ ([some 1] ++ [none, some 2])).values.length = 1 ∧
    (SMAEventWindow.pushList ⟨⟨1, []⟩, none⟩ ([some 5] ++ [none])).value.isSome = true ∧
    (EMAEventWindow.pushList ⟨⟨2, []⟩, 2/3, none⟩
        ([some 1, some 2] ++ [none])).value.isSome = true := by
  refine ⟨?_, ?_, ?_⟩
  · exact window_full_forever.1 1 [some 1] [none, some 2] (by decide) (by decide)
  · exact window_full_forever.2.1 1 [some 5] [none] (by decide) (by decide)
  · exact window_full_forever.2.2 2 (2/3) [some 1, some 2] [none] (by decide) (by decide)

end PyAlgoTrade
